import Mathlib

/-!
Verification development for `updatechecker` (src/main.go).

The program audits git repositories for changes to configuration files:
it loads a checkpoint time from `check.txt`, scans every repository of a
bitbucket account, reports each file whose path contains a configured
pattern and that has a commit authored strictly after the checkpoint
(with the per-file latest such author time), and finally rewrites the
checkpoint with the run's start time.

Shallow embedding conventions:
* Go `string` is modelled as `List Char` (the sources only handle ASCII).
* Go `time.Time` is modelled by `GoTime`: broken-down wall-clock fields
  plus sub-second nanoseconds and the zone offset in minutes.
  `time.Time.Sub` compares absolute instants, modelled by `instOf`
  (nanoseconds relative to the epoch); the monotonic-clock reading and
  `Duration` saturation at the int64 bounds are not modelled.
* Fallible Go calls are modelled with `Option`/`Except`; `nil` error is
  `Except.ok`.
-/

/-- Broken-down time, the information content of Go's `time.Time` that the
program observes: date and clock in the value's own zone, sub-second
nanoseconds and the zone offset (minutes east of UTC). -/
structure GoTime where
  year : Int
  month : Nat
  day : Nat
  hour : Nat
  minute : Nat
  second : Nat
  nanos : Nat
  offMin : Int
deriving DecidableEq, Repr

/-- Leap-year test, as in Go's `time.isLeap` (`%` is truncated like Go's). -/
def isLeapYear (y : Int) : Bool :=
  y % 4 == 0 && (y % 100 != 0 || y % 400 == 0)

/-- Length of a month, as in Go's `time.daysIn`.  Months outside 1..12 do
not occur in any value the program builds; the fallback is arbitrary. -/
def daysInMonth (y : Int) (m : Nat) : Nat :=
  match m with
  | 2 => if isLeapYear y then 29 else 28
  | 4 => 30
  | 6 => 30
  | 9 => 30
  | 11 => 30
  | _ => 31

/-- Days from the epoch 1970-01-01 to the civil date `y-m-d` (standard
civil-from-days inverse, as used by Go's absolute-time conversion). -/
def daysFromCivil (y : Int) (m : Nat) (d : Nat) : Int :=
  let yAdj : Int := if m ≤ 2 then y - 1 else y
  let era : Int := (if 0 ≤ yAdj then yAdj else yAdj - 399) / 400
  let yoe : Int := yAdj - era * 400
  let mp : Int := if 2 < m then (m : Int) - 3 else (m : Int) + 9
  let doy : Int := (153 * mp + 2) / 5 + (d : Int) - 1
  let doe : Int := yoe * 365 + yoe / 4 - yoe / 100 + doy
  era * 146097 + doe - 719468

/-- The absolute instant of a `GoTime`, in nanoseconds from the epoch.
`time.Time.Sub` (used at src/main.go:132 and :137) subtracts these
instants. -/
def instOf (t : GoTime) : Int :=
  ((daysFromCivil t.year t.month t.day) * 86400
      + t.hour * 3600 + t.minute * 60 + t.second - t.offMin * 60) * 1000000000
    + t.nanos

/-- Weekday of a civil date, 0 = Sunday (Sakamoto's method; Go computes
the same weekday from the absolute day count).  Only its value for the
dates the program formats matters, and only up to membership in the
weekday-name table. -/
def weekdayOf (y : Int) (m : Nat) (d : Nat) : Nat :=
  let tbl : List Nat := [0, 3, 2, 5, 0, 3, 5, 1, 4, 6, 2, 4]
  let yAdj : Int := if m < 3 then y - 1 else y
  ((yAdj + yAdj.fdiv 4 - yAdj.fdiv 100 + yAdj.fdiv 400
      + (tbl.getD (m - 1) 0) + d).emod 7).toNat

/-! ## Go string helpers

Models of the `strings` functions the source calls, over `List Char`. -/

/-- Does `s` start with `sub`?  (Helper for the substring searches.) -/
def startsWith : List Char → List Char → Bool
  | _, [] => true
  | [], _ :: _ => false
  | a :: s, b :: t => a == b && startsWith s t

/-- Go `strings.Contains(s, sub)`: `sub` occurs in `s` as a contiguous
substring (case-sensitive, no glob/regex semantics). -/
def containsSub : List Char → List Char → Bool
  | [], sub => startsWith [] sub
  | a :: s', sub => startsWith (a :: s') sub || containsSub s' sub

/-- Go `strings.Index(s, sub)`: index of the first occurrence, `-1` if
none. -/
def goIndex : List Char → List Char → Int
  | [], sub => if startsWith [] sub then 0 else -1
  | a :: s', sub =>
    if startsWith (a :: s') sub then 0
    else
      let r := goIndex s' sub
      if r < 0 then -1 else r + 1

/-- Go `strings.LastIndex(s, sub)`: index of the last occurrence, `-1`
if none. -/
def goLastIndex : List Char → List Char → Int
  | [], sub => if startsWith [] sub then 0 else -1
  | a :: s', sub =>
    let r := goLastIndex s' sub
    if 0 ≤ r then r + 1
    else if startsWith (a :: s') sub then 0 else -1

/-- First component of Go `strings.Split(s, sep)` for a non-empty `sep`:
the prefix of `s` up to the first occurrence of `sep`. -/
def goSplitFirst : List Char → List Char → List Char
  | [], _ => []
  | a :: s', sep => if startsWith (a :: s') sep then [] else a :: goSplitFirst s' sep

/-- Go `strings.TrimRight(s, cutset)`: remove trailing characters that
are in `cutset`. -/
def goTrimRight (s cutset : List Char) : List Char :=
  (s.reverse.dropWhile (fun c => cutset.contains c)).reverse

/-! ## Change Detector (src/main.go, `checkRepository`, lines 115-147)

A repository snapshot provides the file paths of the head tree (in
traversal order) and the per-file commit history that `repository.Log`
returns for a path; `none` models a failing `Log` call. -/

/-- A commit as the detector observes it: its author time
(`c.Author.When`). -/
structure Commit where
  authorWhen : GoTime
deriving DecidableEq, Repr

/-- A queryable snapshot of one repository at its head commit. -/
structure Snapshot where
  files : List (List Char)
  log : List Char → Option (List Commit)

/-- The detector's result map `map[string]time.Time`, as an association
list with at most one entry per key (`rinsert` overwrites in place). -/
abbrev RMap := List (List Char × GoTime)

/-- Lookup `r[k]` in a Go map modelled as an association list. -/
def rlookup {α : Type} : List (List Char × α) → List Char → Option α
  | [], _ => none
  | (k, v) :: r, q => if k = q then some v else rlookup r q

/-- Assignment `r[k] = v` in a Go map modelled as an association list:
overwrite the entry for `k` in place, or append a new one. -/
def rinsert {α : Type} : List (List Char × α) → List Char → α → List (List Char × α)
  | [], k, v => [(k, v)]
  | (k', w) :: r, k, v => if k' = k then (k, v) :: r else (k', w) :: rinsert r k v

/-- The body of `iter.ForEach` (src/main.go:130-143): a qualifying commit
(author time strictly after `lastTime`) enters the result for `fname`
unless a strictly later time is already stored. -/
def commitStep (lastTime : GoTime) (fname : List Char) (r : RMap) (c : Commit) : RMap :=
  if instOf c.authorWhen - instOf lastTime > 0 then
    match rlookup r fname with
    | none => rinsert r fname c.authorWhen
    | some t => if instOf c.authorWhen - instOf t > 0 then rinsert r fname c.authorWhen else r
  else r

/-- The `tree.Files().ForEach` traversal (src/main.go:116-147): for each
file whose path contains the pattern, fold its log into the result.  A
failing `Log` aborts the traversal with an error; the `Bool` records
that error, which the caller discards (the value of
`tree.Files().ForEach(...)` is not used at src/main.go:116). -/
def filesFold (pattern : List Char) (lastTime : GoTime)
    (log : List Char → Option (List Commit)) :
    List (List Char) → RMap → RMap × Bool
  | [], r => (r, false)
  | f :: fs, r =>
    if containsSub f pattern then
      match log f with
      | none => (r, true)
      | some cs => filesFold pattern lastTime log fs (cs.foldl (commitStep lastTime f) r)
    else filesFold pattern lastTime log fs r

/-- The detection result of one repository scan. -/
def checkResult (snap : Snapshot) (pattern : List Char) (lastTime : GoTime) : RMap :=
  (filesFold pattern lastTime snap.log snap.files []).1

/-- Whether a per-file `Log` error occurred (and was discarded) during
the scan. -/
def logDropped (snap : Snapshot) (pattern : List Char) (lastTime : GoTime) : Bool :=
  (filesFold pattern lastTime snap.log snap.files []).2

/-! ## The fixed timestamp format

go-git's `object.DateFormat` is `"Mon Jan 02 15:04:05 2006 -0700"`: a
3-letter weekday name, 3-letter month name, zero-padded 2-digit day,
`hh:mm:ss`, 4-digit year and a signed 4-digit zone offset.  All fields
are fixed-width, so a valid rendering is exactly 30 characters.
`formatDate` models `time.Time.Format(object.DateFormat)` for the years
1000..9999 the program handles; `parseDate` models
`time.Parse(object.DateFormat, s)`, including its range checks (month
name, day-of-month against the month's length, hour/minute/second
bounds) but not its exotic corner cases (years outside 4 digits).
Go's `Parse` reads the weekday name but does not check it against the
date, and rejects any input with leftover characters. -/

/-- Zero-padded 2-digit decimal rendering (for values up to 99). -/
def pad2 (n : Nat) : List Char :=
  [Nat.digitChar (n / 10 % 10), Nat.digitChar (n % 10)]

/-- 4-digit year rendering (for years 1000..9999). -/
def year4 (y : Int) : List Char :=
  [Nat.digitChar (y.toNat / 1000 % 10), Nat.digitChar (y.toNat / 100 % 10),
   Nat.digitChar (y.toNat / 10 % 10), Nat.digitChar (y.toNat % 10)]

/-- The `-0700` zone field: sign, then hours and minutes of the offset. -/
def zoneStr (offMin : Int) : List Char :=
  (if offMin < 0 then '-' else '+')
    :: (pad2 (offMin.natAbs / 60) ++ pad2 (offMin.natAbs % 60))

/-- 3-letter month name (`Jan` .. `Dec`); Go renders an error token for a
month outside 1..12, which never arises here. -/
def monthName (m : Nat) : List Char :=
  match m with
  | 1 => ['J', 'a', 'n']
  | 2 => ['F', 'e', 'b']
  | 3 => ['M', 'a', 'r']
  | 4 => ['A', 'p', 'r']
  | 5 => ['M', 'a', 'y']
  | 6 => ['J', 'u', 'n']
  | 7 => ['J', 'u', 'l']
  | 8 => ['A', 'u', 'g']
  | 9 => ['S', 'e', 'p']
  | 10 => ['O', 'c', 't']
  | 11 => ['N', 'o', 'v']
  | 12 => ['D', 'e', 'c']
  | _ => ['%', '!', 'M']

/-- Month number of a 3-letter month name, as `time.Parse` looks it up. -/
def monthOfName (s : List Char) : Option Nat :=
  if s = ['J', 'a', 'n'] then some 1
  else if s = ['F', 'e', 'b'] then some 2
  else if s = ['M', 'a', 'r'] then some 3
  else if s = ['A', 'p', 'r'] then some 4
  else if s = ['M', 'a', 'y'] then some 5
  else if s = ['J', 'u', 'n'] then some 6
  else if s = ['J', 'u', 'l'] then some 7
  else if s = ['A', 'u', 'g'] then some 8
  else if s = ['S', 'e', 'p'] then some 9
  else if s = ['O', 'c', 't'] then some 10
  else if s = ['N', 'o', 'v'] then some 11
  else if s = ['D', 'e', 'c'] then some 12
  else none

/-- 3-letter weekday name, indexed from 0 = Sunday. -/
def dayName (n : Nat) : List Char :=
  match n with
  | 0 => ['S', 'u', 'n']
  | 1 => ['M', 'o', 'n']
  | 2 => ['T', 'u', 'e']
  | 3 => ['W', 'e', 'd']
  | 4 => ['T', 'h', 'u']
  | 5 => ['F', 'r', 'i']
  | 6 => ['S', 'a', 't']
  | _ => ['%', '!', 'w']

/-- Is `s` one of the seven weekday names?  (`time.Parse` checks this but
does not compare it with the weekday of the parsed date.) -/
def validWeekday (s : List Char) : Bool :=
  s = ['S', 'u', 'n'] || s = ['M', 'o', 'n'] || s = ['T', 'u', 'e'] || s = ['W', 'e', 'd']
    || s = ['T', 'h', 'u'] || s = ['F', 'r', 'i'] || s = ['S', 'a', 't']

/-- `t.Format(object.DateFormat)` (used at src/main.go:150, :198). -/
def formatDate (t : GoTime) : List Char :=
  dayName (weekdayOf t.year t.month t.day) ++ ' ' :: monthName t.month
    ++ ' ' :: pad2 t.day ++ ' ' :: pad2 t.hour ++ ':' :: pad2 t.minute
    ++ ':' :: pad2 t.second ++ ' ' :: year4 t.year ++ ' ' :: zoneStr t.offMin

/-- Numeric value of a digit character. -/
def dv (c : Char) : Nat := c.toNat - 48

/-- `time.Parse(object.DateFormat, s)` (used at src/main.go:181):
succeeds only on a full 30-character match of the layout with valid
field values; the sub-second part of the result is zero. -/
def parseDate (s : List Char) : Option GoTime :=
  match s with
  | [w1, w2, w3, sp1, m1, m2, m3, sp2, d1, d2, sp3, h1, h2, co1, n1, n2, co2,
      s1, s2, sp4, y1, y2, y3, y4, sp5, zs, z1, z2, z3, z4] =>
    if sp1 == ' ' && sp2 == ' ' && sp3 == ' ' && co1 == ':' && co2 == ':'
        && sp4 == ' ' && sp5 == ' ' && validWeekday [w1, w2, w3] then
      match monthOfName [m1, m2, m3] with
      | some mo =>
        if d1.isDigit && d2.isDigit && h1.isDigit && h2.isDigit && n1.isDigit
            && n2.isDigit && s1.isDigit && s2.isDigit && y1.isDigit && y2.isDigit
            && y3.isDigit && y4.isDigit && (zs == '+' || zs == '-')
            && z1.isDigit && z2.isDigit && z3.isDigit && z4.isDigit then
          let day := dv d1 * 10 + dv d2
          let hh := dv h1 * 10 + dv h2
          let mi := dv n1 * 10 + dv n2
          let ss := dv s1 * 10 + dv s2
          let yr : Int := (dv y1 * 1000 + dv y2 * 100 + dv y3 * 10 + dv y4 : Nat)
          let om : Int :=
            (if zs == '-' then -1 else 1) * ((dv z1 * 10 + dv z2) * 60 + (dv z3 * 10 + dv z4))
          if 1 ≤ day && day ≤ daysInMonth yr mo && hh ≤ 23 && mi ≤ 59 && ss ≤ 59 then
            some ⟨yr, mo, day, hh, mi, ss, 0, om⟩
          else none
        else none
      | none => none
    else none
  | _ => none

/-! ## Checkpoint Store (src/main.go, `readCheckTime` / `writeCheckTime`) -/

/-- The state of the checkpoint file `check.txt`. -/
inductive FileState where
  | absent : FileState
  | present : List Char → FileState
deriving DecidableEq

/-- Go's `AddDate(0, months, 0)`: add `months` months, normalising the
month into 1..12 and a day beyond the target month's end into the next
month (for the day values 1..31 that arise, one carry step suffices;
this is how `time.Date` normalises the result). -/
def addMonthsNorm (t : GoTime) (months : Int) : GoTime :=
  let moIdx : Int := (t.month : Int) + months - 1
  let y := t.year + moIdx.fdiv 12
  let m := (moIdx.emod 12).toNat + 1
  if t.day ≤ daysInMonth y m then
    { t with year := y, month := m }
  else if m = 12 then
    { t with year := y + 1, month := 1, day := t.day - daysInMonth y m }
  else
    { t with year := y, month := m + 1, day := t.day - daysInMonth y m }

/-- `readCheckTime` (src/main.go:162-187): a missing checkpoint file
yields "now minus six months" without error; otherwise the content is
read, trailing newlines are trimmed (src/main.go:178) and the result is
parsed in the fixed format, a parse failure being an error.  (I/O errors
of `Stat`/`ReadFile` other than non-existence are not modelled.) -/
def readCheckTime (now : GoTime) (fs : FileState) : Except Unit GoTime :=
  match fs with
  | .absent => .ok (addMonthsNorm now (-6))
  | .present b =>
    match parseDate (goTrimRight b ['\n']) with
    | some t => .ok t
    | none => .error ()

/-- `writeCheckTime` (src/main.go:189-201): the content written over the
checkpoint file, the run's start time in the fixed format. -/
def writeCheckTimeContent (start : GoTime) : List Char :=
  formatDate start

/-! ## Report Builder (src/main.go:149-157)

`checkRepository` iterates the result map and writes one line per entry,
then one blank line if the map was non-empty.  Go's map iteration order
is unspecified, so theorems about the emitted bytes quantify over the
order in which the entries are presented. -/

/-- The line written for one result entry (src/main.go:150). -/
def reportLine (repos : List Char) (e : List Char × GoTime) : List Char :=
  e.1 ++ " in repository(".toList ++ repos
    ++ ") has changed in latest time(".toList ++ formatDate e.2 ++ ")\n".toList

/-- The bytes `checkRepository` appends to the report file for one
repository, given its result entries in some iteration order: the
`for key, val := range result` loop (src/main.go:149-154) followed by
the blank separator line when the map is non-empty (src/main.go:155-157). -/
def reportBlock (repos : List Char) (es : RMap) : List Char :=
  (es.foldl (fun acc e => acc ++ reportLine repos e) [])
    ++ (if es.length > 0 then ['\n'] else [])

/-! ## Run Orchestrator (src/main.go, `checkRepository` and `main`) -/

/-- One repository as `main` sees it: its short name and the outcome of
materialising a snapshot for it (`git.PlainClone`, `Head`,
`CommitObject` and `Tree`, src/main.go:83-113, any of whose failures
`checkRepository` returns). -/
structure RepoSrc where
  name : List Char
  snap : Except Unit Snapshot

/-- `checkRepository` (src/main.go:79-160) for one repository: a snapshot
failure is returned as an error; otherwise the scan produces the result
map and the report bytes, and returns `nil` — including when a per-file
`Log` error was dropped by the discarded `ForEach` value
(src/main.go:116).  File-write errors are not modelled (writes succeed). -/
def checkRepository (pattern : List Char) (lastTime : GoTime) (r : RepoSrc) :
    Except Unit (RMap × List Char) :=
  match r.snap with
  | .error e => .error e
  | .ok snap =>
    let result := checkResult snap pattern lastTime
    .ok (result, reportBlock r.name result)

/-- The repository loop of `main` (src/main.go:254-263): scan each
repository in the given iteration order, appending its report block; the
first error aborts the loop (the `panic` at src/main.go:259), leaving
the report written so far.  Returns the accumulated report bytes and
whether the run failed. -/
def runRepos (pattern : List Char) (lastTime : GoTime) : List RepoSrc → List Char × Bool
  | [] => ([], false)
  | r :: rs =>
    match checkRepository pattern lastTime r with
    | .error _ => ([], true)
    | .ok (_, block) =>
      let rest := runRepos pattern lastTime rs
      (block ++ rest.1, rest.2)

/-- The inputs of one run: the start time captured before any work
(the package-level `start = time.Now()`, src/main.go:23), the clock
value `readCheckTime` observes, the checkpoint file's state, and the
configured pattern. -/
structure RunEnv where
  start : GoTime
  now : GoTime
  checkFile : FileState
  pattern : List Char

/-- The observable outcome of one run: the checkpoint file afterwards,
the report bytes (`none` when the run aborted before creating the report
file), and whether the run aborted. -/
structure RunOutcome where
  checkFile : FileState
  report : Option (List Char)
  failed : Bool
deriving DecidableEq

/-- `main` (src/main.go:214-269), for a repository list in some map
iteration order: read the checkpoint (a failure aborts before the report
file exists), scan the repositories (a failure aborts, leaving the
checkpoint untouched), and only after all scans succeed overwrite the
checkpoint with the formatted start time (src/main.go:266). -/
def runMain (env : RunEnv) (repos : List RepoSrc) : RunOutcome :=
  match readCheckTime env.now env.checkFile with
  | .error _ => ⟨env.checkFile, none, true⟩
  | .ok lastTime =>
    let rep := runRepos env.pattern lastTime repos
    if rep.2 then ⟨env.checkFile, some rep.1, true⟩
    else ⟨.present (writeCheckTimeContent env.start), some rep.1, false⟩

/-! ## Repository enumeration (src/main.go, `retrieveRepositories`,
lines 57-75)

From each clone URL `val` (the HTTPS link already extracted from the
API response), the map key is `strings.Split(repos, ".")[0]` of
`repos := val[strings.LastIndex(val, "/")+1:]` (src/main.go:67-68), and
`repositories[key] = val` overwrites any earlier entry with the same
key (src/main.go:70). -/

/-- The map key derived from one clone URL. -/
def repoKey (val : List Char) : List Char :=
  let repos := val.drop (goLastIndex val ['/'] + 1).toNat
  goSplitFirst repos ['.']

/-- The `repositories` map built from the listed clone URLs, in API
order. -/
def retrieveRepositories (urls : List (List Char)) : List (List Char × List Char) :=
  urls.foldl (fun m val => rinsert m (repoKey val) val) []

/-! ## Proof-support definitions -/

/-- The effect of one commit on the `Option GoTime` stored for a single
file: the per-key content of `commitStep`. -/
def stepTime (lastTime : GoTime) (o : Option GoTime) (c : Commit) : Option GoTime :=
  if instOf c.authorWhen - instOf lastTime > 0 then
    match o with
    | none => some c.authorWhen
    | some m => if instOf c.authorWhen - instOf m > 0 then some c.authorWhen else some m
  else o

/-- The latest qualifying author time of a commit list (`none` when no
commit qualifies), in traversal order. -/
def qualMax (lastTime : GoTime) (cs : List Commit) : Option GoTime :=
  cs.foldl (stepTime lastTime) none

/-- Merge two optional times, keeping the left value unless the right is
strictly later (the reduction the detector applies per file). -/
def optMerge (o q : Option GoTime) : Option GoTime :=
  match q with
  | none => o
  | some y =>
    match o with
    | none => some y
    | some x => if instOf y - instOf x > 0 then some y else some x

/-- Field ranges under which `formatDate` is the faithful image of Go's
`Format(object.DateFormat)`: a representable calendar date with 4-digit
year and an offset below 100 hours (every value Go's clock produces
satisfies this). -/
def ValidGoTime (t : GoTime) : Prop :=
  1 ≤ t.month ∧ t.month ≤ 12 ∧ 1 ≤ t.day ∧ t.day ≤ daysInMonth t.year t.month ∧
    t.hour ≤ 23 ∧ t.minute ≤ 59 ∧ t.second ≤ 59 ∧
    1000 ≤ t.year ∧ t.year ≤ 9999 ∧ t.offMin.natAbs < 6000

instance (t : GoTime) : Decidable (ValidGoTime t) := by
  unfold ValidGoTime; infer_instance

/-! ## Concrete inputs used by the witnesses -/

/-- A concrete pattern, `"conf"`. -/
def patC : List Char := ['c', 'o', 'n', 'f']

/-- A matching file path. -/
def fileA : List Char := ['a', 'c', 'o', 'n', 'f']

/-- A second matching file path. -/
def fileB : List Char := ['b', 'c', 'o', 'n', 'f']

/-- A concrete commit time after the checkpoint `tChk`. -/
def t1 : GoTime := ⟨2019, 12, 10, 13, 7, 28, 0, 480⟩

/-- Another concrete time, later than `t1`. -/
def t2 : GoTime := ⟨2020, 1, 2, 3, 4, 5, 0, 0⟩

/-- A concrete checkpoint time. -/
def tChk : GoTime := ⟨2019, 12, 1, 0, 0, 0, 0, 0⟩

/-- A concrete "now". -/
def tNow : GoTime := ⟨2020, 4, 15, 10, 0, 0, 7, 120⟩

/-- A snapshot with one matching file and one qualifying commit. -/
def snapC : Snapshot :=
  ⟨[fileA], fun g => if g = fileA then some [⟨t1⟩] else none⟩

/-- A snapshot whose matching file's history holds a commit at exactly
the checkpoint instant, between two others. -/
def snapC2 : Snapshot :=
  ⟨[fileA], fun g => if g = fileA then some [⟨t1⟩, ⟨tChk⟩, ⟨t2⟩] else none⟩

/-- A snapshot whose first matching file has a failing `Log` and whose
second matching file has a qualifying commit. -/
def snapBad : Snapshot :=
  ⟨[fileA, fileB], fun g => if g = fileB then some [⟨t1⟩] else none⟩

/-- Two result entries, in the two possible map iteration orders. -/
def esA : RMap := [(['a'], t1), (['b'], t2)]

/-- The same two result entries, presented in the other order. -/
def esB : RMap := [(['b'], t2), (['a'], t1)]

/-- A singleton result map. -/
def esS : RMap := [(['a'], t1)]

/-- A start time with a non-zero sub-second part, for the round-trip
witness. -/
def startW : GoTime := ⟨2019, 12, 10, 13, 7, 28, 123456789, 480⟩

/-- Checkpoint-file content that does not parse. -/
def bBad : List Char := ['h', 'i']

/-- A run whose checkpoint file holds unparsable content. -/
def envBad : RunEnv := ⟨t2, tNow, .present bBad, patC⟩

/-- A run with no prior checkpoint file. -/
def envOk : RunEnv := ⟨t2, tNow, .absent, patC⟩

/-- A repository whose snapshot fails to materialise. -/
def rFail : RepoSrc := ⟨['r'], .error ()⟩

/-- A valid 30-character timestamp, `"Tue Dec 10 13:07:28 2019 +0800"`. -/
def sC9 : List Char :=
  ['T', 'u', 'e', ' ', 'D', 'e', 'c', ' ', '1', '0', ' ', '1', '3', ':', '0', '7',
   ':', '2', '8', ' ', '2', '0', '1', '9', ' ', '+', '0', '8', '0', '0']

/-- A clone URL whose repository name ends in `.git`. -/
def urlC1 : List Char := "https://h/x/name.git".toList

/-- A clone URL with the same derived key. -/
def urlC2 : List Char := "https://h/y/name.2".toList

/-! # Theorems -/

/-! ## Report Builder lemmas -/

lemma foldl_append_eq_join {α : Type} (g : α → List Char) (es : List α) :
    ∀ acc : List Char, es.foldl (fun a e => a ++ g e) acc = acc ++ (es.map g).flatten := by
  induction es with
  | nil => intro acc; simp
  | cons e es ih => intro acc; simp [ih, List.append_assoc]

/-- C8.  For every repository result mapping, presented in any iteration
order: each entry produces exactly the line
`"<filePath> in repository(<repoName>) has changed in latest time(<formattedTime>)\n"`,
a non-empty mapping is followed by exactly one blank separator line, and
an empty mapping writes nothing at all. -/
theorem c8_report_block_shape (repos : List Char) (es : RMap) :
    reportBlock repos es =
      (es.map (fun e =>
        e.1 ++ " in repository(".toList ++ repos
          ++ ") has changed in latest time(".toList ++ formatDate e.2 ++ ")\n".toList)).flatten
      ++ (if es = [] then [] else ['\n']) := by
  have hline : (es.map (fun e : List Char × GoTime =>
      e.1 ++ " in repository(".toList ++ repos
        ++ ") has changed in latest time(".toList ++ formatDate e.2 ++ ")\n".toList))
      = es.map (reportLine repos) := rfl
  unfold reportBlock
  rw [foldl_append_eq_join (reportLine repos) es, hline]
  cases es with
  | nil => simp
  | cons e es => simp

/-- C4, counterexample.  Two presentations of the same result mapping
(the two iteration orders Go's map range may produce) yield different
report bytes: the emitted text is not a function of the mapping alone. -/
theorem c4_counterexample :
    esA.Perm esB ∧ reportBlock ['r'] esA ≠ reportBlock ['r'] esB := by
  constructor
  · decide
  · decide

/-- C4, amended.  For a fixed iteration order the formatting is
deterministic, and permuting the mapping's entries permutes the entry
lines; byte-identity of the whole block is guaranteed only when the
mapping has at most one entry. -/
theorem c4_amended_order_dependence (r : List Char) (es1 es2 : RMap) (h : es1.Perm es2) :
    (es1.map (reportLine r)).Perm (es2.map (reportLine r)) ∧
    (es1.length ≤ 1 → reportBlock r es1 = reportBlock r es2) := by
  refine ⟨h.map _, fun hl => ?_⟩
  cases es1 with
  | nil => rw [List.perm_nil.mp h.symm]
  | cons e t =>
    cases t with
    | nil => rw [List.perm_singleton.mp h.symm]
    | cons e' t' => simp at hl

/-- C4, witness for the amended statement at a singleton mapping. -/
theorem c4_amended_witness :
    (esS.map (reportLine ['r'])).Perm (esS.map (reportLine ['r'])) ∧
    (esS.length ≤ 1 → reportBlock ['r'] esS = reportBlock ['r'] esS) :=
  c4_amended_order_dependence ['r'] esS esS (List.Perm.refl esS)

/-! ## Repository-key lemmas -/

lemma goLastIndex_eq_neg_one (b : List Char) (c : Char) (hb : ∀ x ∈ b, x ≠ c) :
    goLastIndex b [c] = -1 := by
  induction b with
  | nil => rfl
  | cons x b ih =>
    have hx : x ≠ c := hb x (List.mem_cons_self x b)
    have ht : goLastIndex b [c] = -1 := ih fun y hy => hb y (List.mem_cons_of_mem x hy)
    simp [goLastIndex, ht, startsWith, hx]

lemma goLastIndex_append (a b : List Char) (c : Char) (hb : ∀ x ∈ b, x ≠ c) :
    goLastIndex (a ++ c :: b) [c] = a.length := by
  induction a with
  | nil => simp [goLastIndex, goLastIndex_eq_neg_one b c hb, startsWith]
  | cons x a ih =>
    show goLastIndex (x :: (a ++ c :: b)) [c] = ((x :: a).length : Int)
    simp only [goLastIndex]
    rw [ih]
    have h0 : (0 : Int) ≤ (a.length : Int) := Int.ofNat_nonneg a.length
    rw [if_pos h0]
    simp only [List.length_cons]
    omega

lemma repoKey_append (a b : List Char) (hb : ∀ x ∈ b, x ≠ '/') :
    repoKey (a ++ '/' :: b) = goSplitFirst b ['.'] := by
  unfold repoKey
  rw [goLastIndex_append a b '/' hb]
  have h1 : ((a.length : Int) + 1).toNat = (a ++ ['/']).length := by simp
  have h2 : a ++ '/' :: b = (a ++ ['/']) ++ b := by simp
  rw [h1, h2, List.drop_left]

lemma rlookup_rinsert {α : Type} (m : List (List Char × α)) (k q : List Char) (v : α) :
    rlookup (rinsert m k v) q = if k = q then some v else rlookup m q := by
  induction m with
  | nil => simp [rinsert, rlookup]
  | cons e m ih =>
    obtain ⟨k', w⟩ := e
    by_cases hk : k' = k
    · subst hk
      by_cases hq : k' = q <;> simp [rinsert, rlookup, hq]
    · by_cases hq : k' = q
      · subst hq
        have hkq : k ≠ k' := fun h => hk h.symm
        simp [rinsert, hk, rlookup, hkq]
      · simp [rinsert, hk, rlookup, hq, ih]

lemma rlookup_retrieveRepositories (urls : List (List Char)) (k : List Char) :
    rlookup (retrieveRepositories urls) k
      = (urls.filter (fun u => decide (repoKey u = k))).getLast? := by
  unfold retrieveRepositories
  induction urls using List.reverseRecOn with
  | nil => rfl
  | append_singleton us u ih =>
    rw [List.foldl_append]
    simp only [List.foldl_cons, List.foldl_nil]
    rw [rlookup_rinsert]
    by_cases hk : repoKey u = k
    · simp [hk, List.filter_append]
    · simp [hk, List.filter_append, ih]

/-- C10.  The map key of a listed repository is the part of its clone URL
after the last `/`, truncated at the first `.`; and the built map sends
each key to the last listed URL deriving that key, so two URLs with the
same derived key collapse to one entry, the later overwriting the
earlier. -/
theorem c10_repo_key_and_collapse (urls : List (List Char)) (k : List Char)
    (a b : List Char) (hb : ∀ x ∈ b, x ≠ '/') :
    repoKey (a ++ '/' :: b) = goSplitFirst b ['.'] ∧
    rlookup (retrieveRepositories urls) k
      = (urls.filter (fun u => decide (repoKey u = k))).getLast? :=
  ⟨repoKey_append a b hb, rlookup_retrieveRepositories urls k⟩

/-- C10, witness: `name.git` becomes `name`, and of two URLs sharing the
key `name` the later one wins. -/
theorem c10_witness :
    repoKey ("https://h/x".toList ++ '/' :: "name.git".toList)
        = goSplitFirst "name.git".toList ['.'] ∧
    rlookup (retrieveRepositories [urlC1, urlC2]) "name".toList
      = ([urlC1, urlC2].filter (fun u => decide (repoKey u = "name".toList))).getLast? :=
  c10_repo_key_and_collapse [urlC1, urlC2] "name".toList
    "https://h/x".toList "name.git".toList (by decide)

/-! ## The dropped per-file log error -/

/-- C3.  The per-file `Log` failure is not returned: with a snapshot
whose first matching file has a failing `Log` (and whose second matching
file has a qualifying commit), the traversal records the error, yet
`checkRepository` returns `ok` with an empty result and an empty report
block — the error of `tree.Files().ForEach` is discarded at
src/main.go:116, because its result value is not used. -/
theorem c3_log_error_not_returned :
    containsSub fileA patC = true ∧
    snapBad.log fileA = none ∧
    logDropped snapBad patC tChk = true ∧
    instOf tChk < instOf (⟨t1⟩ : Commit).authorWhen ∧
    checkRepository patC tChk ⟨['r'], .ok snapBad⟩ = .ok ([], []) := by
  refine ⟨by decide, by decide, by decide, by decide, rfl⟩

/-! ## Boundary commits (C2) -/

lemma commitStep_not_qualifying (lastTime : GoTime) (f : List Char) (r : RMap) (c : Commit)
    (hc : ¬ (instOf c.authorWhen - instOf lastTime > 0)) :
    commitStep lastTime f r c = r := by
  simp [commitStep, hc]

/-- C2.  A commit whose author time is exactly the checkpoint instant
does not qualify: removing it from a file's history leaves the whole
traversal (result map and dropped-error flag) unchanged. -/
theorem c2_boundary_commit_no_effect (snap : Snapshot) (pattern : List Char)
    (lastTime : GoTime) (f : List Char) (pre post : List Commit) (c : Commit)
    (hc : instOf c.authorWhen = instOf lastTime)
    (hlog : snap.log f = some (pre ++ c :: post)) :
    filesFold pattern lastTime snap.log snap.files []
      = filesFold pattern lastTime
          (fun g => if g = f then some (pre ++ post) else snap.log g) snap.files [] := by
  have hstep : ∀ r : RMap, (pre ++ c :: post).foldl (commitStep lastTime f) r
      = (pre ++ post).foldl (commitStep lastTime f) r := by
    intro r
    rw [List.foldl_append, List.foldl_append, List.foldl_cons,
      commitStep_not_qualifying lastTime f _ c (by omega)]
  suffices h : ∀ (fs : List (List Char)) (r : RMap),
      filesFold pattern lastTime snap.log fs r
        = filesFold pattern lastTime
            (fun g => if g = f then some (pre ++ post) else snap.log g) fs r from
    h snap.files []
  intro fs
  induction fs with
  | nil => intro r; rfl
  | cons g fs ih =>
    intro r
    by_cases hg : containsSub g pattern = true
    · by_cases hgf : g = f
      · subst hgf
        simp [filesFold, hg, hlog, hstep r]
        exact ih _
      · simp only [filesFold, hg, if_neg hgf, if_pos rfl]
        cases hl : snap.log g with
        | none => simp [hl]
        | some cs => simp only [hl, ih]
    · simp only [filesFold, Bool.not_eq_true] at hg ⊢
      simp only [hg, Bool.false_eq_true, if_false, ih]

/-- C2, witness: a history `[t1, tChk, t2]` around a commit at exactly
the checkpoint instant gives the same scan as `[t1, t2]`. -/
theorem c2_witness :
    filesFold patC tChk snapC2.log snapC2.files []
      = filesFold patC tChk
          (fun g => if g = fileA then some ([⟨t1⟩] ++ [⟨t2⟩]) else snapC2.log g)
          snapC2.files [] :=
  c2_boundary_commit_no_effect snapC2 patC tChk fileA [⟨t1⟩] [⟨t2⟩] ⟨tChk⟩ rfl (by decide)

/-! ## Detector characterisation (C1) -/

lemma optMerge_none_left (q : Option GoTime) : optMerge none q = q := by
  cases q <;> rfl

lemma optMerge_none_right (o : Option GoTime) : optMerge o none = o := rfl

lemma optMerge_some_some (x y : GoTime) :
    optMerge (some x) (some y) = if instOf y - instOf x > 0 then some y else some x := rfl

lemma stepTime_not_qual (lt : GoTime) (o : Option GoTime) (c : Commit)
    (hq : ¬ instOf c.authorWhen - instOf lt > 0) : stepTime lt o c = o := by
  simp only [stepTime, if_neg hq]

lemma stepTime_qual_none (lt : GoTime) (c : Commit)
    (hq : instOf c.authorWhen - instOf lt > 0) : stepTime lt none c = some c.authorWhen := by
  simp only [stepTime, if_pos hq]

lemma stepTime_qual_some (lt : GoTime) (x : GoTime) (c : Commit)
    (hq : instOf c.authorWhen - instOf lt > 0) :
    stepTime lt (some x) c
      = if instOf c.authorWhen - instOf x > 0 then some c.authorWhen else some x := by
  simp only [stepTime, if_pos hq]

lemma optMerge_stepTime_dist (lt : GoTime) (o q : Option GoTime) (c : Commit) :
    optMerge (stepTime lt o c) q = optMerge o (optMerge (stepTime lt none c) q) := by
  by_cases hq : instOf c.authorWhen - instOf lt > 0
  · rw [stepTime_qual_none lt c hq]
    cases o with
    | none => rw [stepTime_qual_none lt c hq, optMerge_none_left]
    | some x =>
      rw [stepTime_qual_some lt x c hq]
      by_cases h1 : instOf c.authorWhen - instOf x > 0
      · rw [if_pos h1]
        cases q with
        | none =>
          rw [optMerge_none_right, optMerge_some_some x c.authorWhen, if_pos h1]
        | some y =>
          rw [optMerge_some_some c.authorWhen y]
          by_cases h2 : instOf y - instOf c.authorWhen > 0
          · rw [if_pos h2, optMerge_some_some x y, if_pos (by omega)]
          · rw [if_neg h2, optMerge_some_some x c.authorWhen, if_pos h1]
      · rw [if_neg h1]
        cases q with
        | none =>
          rw [optMerge_none_right, optMerge_none_right,
            optMerge_some_some x c.authorWhen, if_neg h1]
        | some y =>
          rw [optMerge_some_some c.authorWhen y]
          by_cases h2 : instOf y - instOf c.authorWhen > 0
          · rw [if_pos h2]
          · rw [if_neg h2, optMerge_some_some x c.authorWhen, if_neg h1,
              optMerge_some_some x y, if_neg (by omega)]
  · rw [stepTime_not_qual lt o c hq, stepTime_not_qual lt none c hq, optMerge_none_left]

lemma optMerge_idem (o q : Option GoTime) : optMerge (optMerge o q) q = optMerge o q := by
  cases q with
  | none => rfl
  | some y =>
    cases o with
    | none =>
      rw [optMerge_none_left, optMerge_some_some y y,
        if_neg (show ¬ instOf y - instOf y > 0 by omega)]
    | some x =>
      rw [optMerge_some_some x y]
      by_cases h : instOf y - instOf x > 0
      · rw [if_pos h, optMerge_some_some y y,
          if_neg (show ¬ instOf y - instOf y > 0 by omega)]
      · rw [if_neg h, optMerge_some_some x y, if_neg h]

lemma foldl_stepTime_merge (lt : GoTime) (cs : List Commit) :
    ∀ o, cs.foldl (stepTime lt) o = optMerge o (qualMax lt cs) := by
  induction cs with
  | nil => intro o; rfl
  | cons c cs ih =>
    intro o
    rw [List.foldl_cons, ih (stepTime lt o c)]
    have h2 : qualMax lt (c :: cs) = optMerge (stepTime lt none c) (qualMax lt cs) := by
      show List.foldl (stepTime lt) none (c :: cs) = _
      rw [List.foldl_cons, ih (stepTime lt none c)]
    rw [h2, optMerge_stepTime_dist]

lemma rlookup_commitStep_ne (lt : GoTime) (f q : List Char) (r : RMap) (c : Commit)
    (h : q ≠ f) : rlookup (commitStep lt f r c) q = rlookup r q := by
  have hfq : f ≠ q := fun hh => h hh.symm
  by_cases hq : instOf c.authorWhen - instOf lt > 0
  · cases hl : rlookup r f with
    | none =>
      have e : commitStep lt f r c = rinsert r f c.authorWhen := by
        simp only [commitStep, if_pos hq, hl]
      rw [e, rlookup_rinsert, if_neg hfq]
    | some t =>
      by_cases hgt : instOf c.authorWhen - instOf t > 0
      · have e : commitStep lt f r c = rinsert r f c.authorWhen := by
          simp only [commitStep, if_pos hq, hl, if_pos hgt]
        rw [e, rlookup_rinsert, if_neg hfq]
      · have e : commitStep lt f r c = r := by
          simp only [commitStep, if_pos hq, hl, if_neg hgt]
        rw [e]
  · have e : commitStep lt f r c = r := by simp only [commitStep, if_neg hq]
    rw [e]

lemma rlookup_commitStep_self (lt : GoTime) (f : List Char) (r : RMap) (c : Commit) :
    rlookup (commitStep lt f r c) f = stepTime lt (rlookup r f) c := by
  by_cases hq : instOf c.authorWhen - instOf lt > 0
  · cases hl : rlookup r f with
    | none =>
      have e : commitStep lt f r c = rinsert r f c.authorWhen := by
        simp only [commitStep, if_pos hq, hl]
      rw [stepTime_qual_none lt c hq, e, rlookup_rinsert, if_pos rfl]
    | some t =>
      rw [stepTime_qual_some lt t c hq]
      by_cases hgt : instOf c.authorWhen - instOf t > 0
      · have e : commitStep lt f r c = rinsert r f c.authorWhen := by
          simp only [commitStep, if_pos hq, hl, if_pos hgt]
        rw [e, rlookup_rinsert, if_pos rfl, if_pos hgt]
      · have e : commitStep lt f r c = r := by
          simp only [commitStep, if_pos hq, hl, if_neg hgt]
        rw [e, if_neg hgt, hl]
  · rw [stepTime_not_qual lt (rlookup r f) c hq]
    have e : commitStep lt f r c = r := by simp only [commitStep, if_neg hq]
    rw [e]

lemma rlookup_foldl_commitStep (lt : GoTime) (f q : List Char) (cs : List Commit) :
    ∀ r : RMap, rlookup (cs.foldl (commitStep lt f) r) q
      = if q = f then cs.foldl (stepTime lt) (rlookup r f) else rlookup r q := by
  induction cs with
  | nil => intro r; by_cases h : q = f <;> simp [h]
  | cons c cs ih =>
    intro r
    rw [List.foldl_cons, ih (commitStep lt f r c), List.foldl_cons]
    by_cases h : q = f
    · simp [h, rlookup_commitStep_self]
    · simp [h, rlookup_commitStep_ne lt f q r c h]

lemma stepTime_eq_none_iff (lt : GoTime) (o : Option GoTime) (c : Commit) :
    stepTime lt o c = none ↔ o = none ∧ ¬ (instOf lt < instOf c.authorWhen) := by
  by_cases hq : instOf c.authorWhen - instOf lt > 0
  · cases o with
    | none =>
      rw [stepTime_qual_none lt c hq]
      simp
      omega
    | some x =>
      rw [stepTime_qual_some lt x c hq]
      constructor
      · intro hh
        split_ifs at hh
      · rintro ⟨hh, _⟩
        cases hh
  · rw [stepTime_not_qual lt o c hq]
    cases o with
    | none => simp; omega
    | some x => simp

lemma foldl_stepTime_eq_none_iff (lt : GoTime) (cs : List Commit) :
    ∀ o, cs.foldl (stepTime lt) o = none ↔
      o = none ∧ ∀ c ∈ cs, ¬ (instOf lt < instOf c.authorWhen) := by
  induction cs with
  | nil => intro o; simp
  | cons c cs ih =>
    intro o
    rw [List.foldl_cons, ih (stepTime lt o c), stepTime_eq_none_iff, List.forall_mem_cons]
    tauto

lemma foldl_stepTime_eq_some (lt : GoTime) (cs : List Commit) :
    ∀ (o : Option GoTime) (m : GoTime), cs.foldl (stepTime lt) o = some m →
      (o = some m ∨ ∃ c ∈ cs, c.authorWhen = m ∧ instOf lt < instOf c.authorWhen) ∧
      (∀ x, o = some x → instOf x ≤ instOf m) ∧
      (∀ c ∈ cs, instOf lt < instOf c.authorWhen → instOf c.authorWhen ≤ instOf m) := by
  induction cs with
  | nil =>
    intro o m h
    simp only [List.foldl_nil] at h
    subst h
    exact ⟨Or.inl rfl, fun x hx => by cases hx; exact le_refl _, by simp⟩
  | cons c cs ih =>
    intro o m h
    rw [List.foldl_cons] at h
    obtain ⟨h1, h2, h3⟩ := ih (stepTime lt o c) m h
    by_cases hq : instOf c.authorWhen - instOf lt > 0
    · refine ⟨?_, ?_, ?_⟩
      · rcases h1 with h1 | ⟨c', hc', hcm, hq'⟩
        · cases o with
          | none =>
            rw [stepTime_qual_none lt c hq] at h1
            injection h1 with h1
            exact Or.inr ⟨c, List.mem_cons_self c cs, h1, by omega⟩
          | some x =>
            rw [stepTime_qual_some lt x c hq] at h1
            by_cases hgt : instOf c.authorWhen - instOf x > 0
            · rw [if_pos hgt] at h1
              injection h1 with h1
              exact Or.inr ⟨c, List.mem_cons_self c cs, h1, by omega⟩
            · rw [if_neg hgt] at h1
              exact Or.inl h1
        · exact Or.inr ⟨c', List.mem_cons_of_mem c hc', hcm, hq'⟩
      · intro x hx
        subst hx
        rw [stepTime_qual_some lt x c hq] at h2
        by_cases hgt : instOf c.authorWhen - instOf x > 0
        · have := h2 c.authorWhen (by rw [if_pos hgt])
          omega
        · exact h2 x (by rw [if_neg hgt])
      · intro c' hc' hq'
        rcases List.mem_cons.mp hc' with rfl | hmem
        · cases o with
          | none =>
            exact h2 c'.authorWhen (stepTime_qual_none lt c' hq)
          | some x =>
            rw [stepTime_qual_some lt x c' hq] at h2
            by_cases hgt : instOf c'.authorWhen - instOf x > 0
            · exact h2 c'.authorWhen (by rw [if_pos hgt])
            · have := h2 x (by rw [if_neg hgt])
              omega
        · exact h3 c' hmem hq'
    · rw [stepTime_not_qual lt o c hq] at h1 h2
      refine ⟨?_, h2, ?_⟩
      · rcases h1 with h1 | ⟨c', hc', hcm, hq'⟩
        · exact Or.inl h1
        · exact Or.inr ⟨c', List.mem_cons_of_mem c hc', hcm, hq'⟩
      · intro c' hc' hq'
        rcases List.mem_cons.mp hc' with rfl | hmem
        · exact absurd hq' (by omega)
        · exact h3 c' hmem hq'

lemma rlookup_filesFold (pattern : List Char) (lt : GoTime)
    (log : List Char → Option (List Commit)) (p : List Char) :
    ∀ (fs : List (List Char)) (r : RMap),
      (∀ f ∈ fs, containsSub f pattern = true → log f ≠ none) →
      rlookup (filesFold pattern lt log fs r).1 p =
        if p ∈ fs ∧ containsSub p pattern = true
        then optMerge (rlookup r p) (qualMax lt ((log p).getD []))
        else rlookup r p := by
  intro fs
  induction fs with
  | nil =>
    intro r _
    simp [filesFold]
  | cons f fs ih =>
    intro r hok
    have hokt : ∀ g ∈ fs, containsSub g pattern = true → log g ≠ none :=
      fun g hg => hok g (List.mem_cons_of_mem f hg)
    by_cases hf : containsSub f pattern = true
    · obtain ⟨cs, hcs⟩ : ∃ cs, log f = some cs := by
        cases hl : log f with
        | none => exact absurd hl (hok f (List.mem_cons_self f fs) hf)
        | some cs => exact ⟨cs, rfl⟩
      have hstep : filesFold pattern lt log (f :: fs) r
          = filesFold pattern lt log fs (cs.foldl (commitStep lt f) r) := by
        simp [filesFold, hf, hcs]
      rw [hstep, ih _ hokt]
      by_cases hp : p = f
      · subst hp
        have hlk : rlookup (cs.foldl (commitStep lt p) r) p
            = optMerge (rlookup r p) (qualMax lt cs) := by
          rw [rlookup_foldl_commitStep, if_pos rfl, foldl_stepTime_merge]
        have hgd : (log p).getD [] = cs := by rw [hcs]; rfl
        by_cases hmem : p ∈ fs
        · rw [if_pos ⟨hmem, hf⟩, if_pos ⟨List.mem_cons_self p fs, hf⟩, hlk, hgd,
            optMerge_idem]
        · rw [if_neg (fun hc => hmem hc.1), if_pos ⟨List.mem_cons_self p fs, hf⟩, hlk, hgd]
      · have hlk : rlookup (cs.foldl (commitStep lt f) r) p = rlookup r p := by
          rw [rlookup_foldl_commitStep, if_neg hp]
        rw [hlk]
        have hiff : (p ∈ fs ∧ containsSub p pattern = true)
            ↔ (p ∈ f :: fs ∧ containsSub p pattern = true) := by
          simp [List.mem_cons, hp]
        exact if_congr hiff rfl rfl
    · have hstep : filesFold pattern lt log (f :: fs) r = filesFold pattern lt log fs r := by
        simp [filesFold, hf]
      rw [hstep, ih _ hokt]
      have hiff : (p ∈ fs ∧ containsSub p pattern = true)
          ↔ (p ∈ f :: fs ∧ containsSub p pattern = true) := by
        constructor
        · rintro ⟨hm, hc⟩
          exact ⟨List.mem_cons_of_mem f hm, hc⟩
        · rintro ⟨hm, hc⟩
          rcases List.mem_cons.mp hm with rfl | hm'
          · exact absurd hc hf
          · exact ⟨hm', hc⟩
      exact if_congr hiff rfl rfl

/-- C1.  For a snapshot whose matching files all have retrievable
histories, the detection result contains a path iff that path is in the
head tree, contains the pattern as a (case-sensitive) substring, and has
at least one commit authored strictly after the checkpoint; and the
stored time is a qualifying commit's author time that is maximal among
all qualifying commits of that path. -/
theorem c1_detector_characterisation (snap : Snapshot) (pattern : List Char)
    (lastTime : GoTime)
    (hok : ∀ f ∈ snap.files, containsSub f pattern = true → snap.log f ≠ none)
    (p : List Char) :
    (¬ rlookup (checkResult snap pattern lastTime) p = none ↔
      p ∈ snap.files ∧ containsSub p pattern = true ∧
        ∃ cs, snap.log p = some cs ∧ ∃ c ∈ cs, instOf lastTime < instOf c.authorWhen) ∧
    (∀ m, rlookup (checkResult snap pattern lastTime) p = some m →
      (∃ cs, snap.log p = some cs
          ∧ ∃ c ∈ cs, c.authorWhen = m ∧ instOf lastTime < instOf c.authorWhen) ∧
      (∀ cs, snap.log p = some cs → ∀ c ∈ cs, instOf lastTime < instOf c.authorWhen →
        instOf c.authorWhen ≤ instOf m)) := by
  have hbase : rlookup (checkResult snap pattern lastTime) p =
      if p ∈ snap.files ∧ containsSub p pattern = true
      then optMerge (rlookup ([] : RMap) p) (qualMax lastTime ((snap.log p).getD []))
      else rlookup ([] : RMap) p := by
    unfold checkResult
    exact rlookup_filesFold pattern lastTime snap.log p snap.files [] hok
  have hnil : rlookup ([] : RMap) p = none := rfl
  rw [hnil, optMerge_none_left] at hbase
  constructor
  · constructor
    · intro hne
      by_cases hcond : p ∈ snap.files ∧ containsSub p pattern = true
      · obtain ⟨hm, hc⟩ := hcond
        obtain ⟨cs, hcs⟩ : ∃ cs, snap.log p = some cs := by
          cases hl : snap.log p with
          | none => exact absurd hl (hok p hm hc)
          | some cs => exact ⟨cs, rfl⟩
        rw [hbase, if_pos ⟨hm, hc⟩, hcs] at hne
        refine ⟨hm, hc, cs, hcs, ?_⟩
        simp only [Option.getD_some] at hne
        unfold qualMax at hne
        rw [foldl_stepTime_eq_none_iff] at hne
        push_neg at hne
        exact hne rfl
      · exfalso
        rw [hbase, if_neg hcond] at hne
        exact hne rfl
    · rintro ⟨hm, hc, cs, hcs, c, hcmem, hq⟩
      rw [hbase, if_pos ⟨hm, hc⟩, hcs]
      simp only [Option.getD_some]
      unfold qualMax
      rw [foldl_stepTime_eq_none_iff]
      push_neg
      intro _
      exact ⟨c, hcmem, hq⟩
  · intro m hm'
    by_cases hcond : p ∈ snap.files ∧ containsSub p pattern = true
    · obtain ⟨hmem, hc⟩ := hcond
      obtain ⟨cs, hcs⟩ : ∃ cs, snap.log p = some cs := by
        cases hl : snap.log p with
        | none => exact absurd hl (hok p hmem hc)
        | some cs => exact ⟨cs, rfl⟩
      rw [hbase, if_pos ⟨hmem, hc⟩, hcs] at hm'
      simp only [Option.getD_some] at hm'
      unfold qualMax at hm'
      obtain ⟨h1, _, h3⟩ := foldl_stepTime_eq_some lastTime cs none m hm'
      rcases h1 with h1 | h1
      · cases h1
      · refine ⟨⟨cs, hcs, h1⟩, ?_⟩
        intro cs' hcs' c hc' hq'
        rw [hcs] at hcs'
        injection hcs' with e
        subst e
        exact h3 c hc' hq'
    · rw [hbase, if_neg hcond] at hm'
      cases hm'

/-- C1, witness at a one-file snapshot with one qualifying commit. -/
theorem c1_witness :
    (¬ rlookup (checkResult snapC patC tChk) fileA = none ↔
      fileA ∈ snapC.files ∧ containsSub fileA patC = true ∧
        ∃ cs, snapC.log fileA = some cs ∧ ∃ c ∈ cs, instOf tChk < instOf c.authorWhen) ∧
    (∀ m, rlookup (checkResult snapC patC tChk) fileA = some m →
      (∃ cs, snapC.log fileA = some cs
          ∧ ∃ c ∈ cs, c.authorWhen = m ∧ instOf tChk < instOf c.authorWhen) ∧
      (∀ cs, snapC.log fileA = some cs → ∀ c ∈ cs, instOf tChk < instOf c.authorWhen →
        instOf c.authorWhen ≤ instOf m)) :=
  c1_detector_characterisation snapC patC tChk (by decide) fileA

/-! ## Orchestrator and Checkpoint Store (C6, C7) -/

lemma runRepos_failed_iff (pattern : List Char) (lt : GoTime) (repos : List RepoSrc) :
    (runRepos pattern lt repos).2 = true ↔ ∃ r ∈ repos, r.snap = .error () := by
  induction repos with
  | nil => simp [runRepos]
  | cons r rs ih =>
    cases hs : r.snap with
    | error e =>
      cases e
      have hcr : checkRepository pattern lt r = .error () := by
        simp [checkRepository, hs]
      constructor
      · intro _
        exact ⟨r, List.mem_cons_self r rs, hs⟩
      · intro _
        simp [runRepos, hcr]
    | ok snap =>
      have hcr : checkRepository pattern lt r
          = .ok (checkResult snap pattern lt,
              reportBlock r.name (checkResult snap pattern lt)) := by
        simp [checkRepository, hs]
      have hrr : (runRepos pattern lt (r :: rs)).2 = (runRepos pattern lt rs).2 := by
        simp [runRepos, hcr]
      rw [hrr, ih]
      constructor
      · rintro ⟨r', hr', he⟩
        exact ⟨r', List.mem_cons_of_mem r hr', he⟩
      · rintro ⟨r', hr', he⟩
        rcases List.mem_cons.mp hr' with rfl | hm
        · rw [hs] at he
          cases he
        · exact ⟨r', hm, he⟩

/-- C7.  The checkpoint file is only ever overwritten with the formatted
run-start time, and only on a run in which no repository scan failed; in
particular a run with a failing scan leaves it untouched, and a run with
a readable checkpoint and no failing scan ends with the start time
written. -/
theorem c7_checkpoint_advance (env : RunEnv) (repos : List RepoSrc) :
    ((∃ r ∈ repos, r.snap = .error ()) → (runMain env repos).checkFile = env.checkFile) ∧
    ((runMain env repos).checkFile ≠ env.checkFile →
      (runMain env repos).checkFile = .present (writeCheckTimeContent env.start) ∧
        ∀ r ∈ repos, r.snap ≠ .error ()) ∧
    ((∃ lt, readCheckTime env.now env.checkFile = .ok lt) →
      (∀ r ∈ repos, r.snap ≠ .error ()) →
      (runMain env repos).checkFile = .present (writeCheckTimeContent env.start) ∧
        (runMain env repos).failed = false) := by
  cases hr : readCheckTime env.now env.checkFile with
  | error e =>
    have hm : runMain env repos = ⟨env.checkFile, none, true⟩ := by
      simp [runMain, hr]
    refine ⟨fun _ => by rw [hm],
      fun hne => absurd (show (runMain env repos).checkFile = env.checkFile by rw [hm]) hne,
      ?_⟩
    rintro ⟨lt, hlt⟩
    cases hlt
  | ok lt =>
    cases hf : (runRepos env.pattern lt repos).2 with
    | true =>
      have hm : runMain env repos
          = ⟨env.checkFile, some (runRepos env.pattern lt repos).1, true⟩ := by
        simp [runMain, hr, hf]
      have hex : ∃ r ∈ repos, r.snap = .error () := (runRepos_failed_iff _ _ _).mp hf
      refine ⟨fun _ => by rw [hm],
        fun hne => absurd (show (runMain env repos).checkFile = env.checkFile by rw [hm]) hne,
        ?_⟩
      intro _ hall
      obtain ⟨r, hrm, he⟩ := hex
      exact absurd he (hall r hrm)
    | false =>
      have hm : runMain env repos
          = ⟨.present (writeCheckTimeContent env.start),
              some (runRepos env.pattern lt repos).1, false⟩ := by
        simp [runMain, hr, hf]
      refine ⟨?_, ?_, ?_⟩
      · rintro ⟨r, hrm, he⟩
        have hcontra : (runRepos env.pattern lt repos).2 = true :=
          (runRepos_failed_iff _ _ _).mpr ⟨r, hrm, he⟩
        rw [hf] at hcontra
        cases hcontra
      · intro _
        refine ⟨by rw [hm], ?_⟩
        intro r hrm he
        have hcontra : (runRepos env.pattern lt repos).2 = true :=
          (runRepos_failed_iff _ _ _).mpr ⟨r, hrm, he⟩
        rw [hf] at hcontra
        cases hcontra
      · intro _ _
        exact ⟨by rw [hm], by rw [hm]⟩

/-- C7, witness: a failing repository leaves the (absent) checkpoint
file untouched. -/
theorem c7_witness :
    (runMain envOk [rFail]).checkFile = envOk.checkFile :=
  (c7_checkpoint_advance envOk [rFail]).1 ⟨rFail, List.mem_cons_self rFail [], rfl⟩

/-- C6.  Loading the checkpoint with no file present yields "now minus
six months" without error; content that does not parse in the fixed
format yields an error, and a run over such a checkpoint aborts before
creating the report file, leaving the checkpoint untouched. -/
theorem c6_checkpoint_load (now : GoTime) (b : List Char) (env : RunEnv)
    (repos : List RepoSrc)
    (hb : parseDate (goTrimRight b ['\n']) = none)
    (henv : env.checkFile = .present b) :
    readCheckTime now .absent = .ok (addMonthsNorm now (-6)) ∧
    readCheckTime now (.present b) = .error () ∧
    (runMain env repos).failed = true ∧
    (runMain env repos).report = none ∧
    (runMain env repos).checkFile = env.checkFile := by
  have h1 : readCheckTime now (.present b) = .error () := by
    simp [readCheckTime, hb]
  have h2 : readCheckTime env.now env.checkFile = .error () := by
    rw [henv]
    simp [readCheckTime, hb]
  have hm : runMain env repos = ⟨env.checkFile, none, true⟩ := by
    simp [runMain, h2]
  exact ⟨rfl, h1, by rw [hm], by rw [hm], by rw [hm]⟩

/-- C6, witness at concrete unparsable content. -/
theorem c6_witness :
    readCheckTime tNow .absent = .ok (addMonthsNorm tNow (-6)) ∧
    readCheckTime tNow (.present bBad) = .error () ∧
    (runMain envBad []).failed = true ∧
    (runMain envBad []).report = none ∧
    (runMain envBad []).checkFile = envBad.checkFile :=
  c6_checkpoint_load tNow bBad envBad [] (by decide) rfl

/-! ## Checkpoint format round-trip (C5, C9) -/

lemma digitChar_isDigit (k : Nat) : (Nat.digitChar (k % 10)).isDigit = true := by
  have h : k % 10 < 10 := Nat.mod_lt _ (by norm_num)
  have hall : ∀ n < 10, (Nat.digitChar n).isDigit = true := by decide
  exact hall _ h

lemma dv_digitChar (k : Nat) : dv (Nat.digitChar (k % 10)) = k % 10 := by
  have h : k % 10 < 10 := Nat.mod_lt _ (by norm_num)
  have hall : ∀ n < 10, dv (Nat.digitChar n) = n := by decide
  exact hall _ h

lemma digitChar_ne_newline (k : Nat) : Nat.digitChar (k % 10) ≠ '\n' := by
  have h : k % 10 < 10 := Nat.mod_lt _ (by norm_num)
  have hall : ∀ n < 10, Nat.digitChar n ≠ '\n' := by decide
  exact hall _ h

lemma int_emod7_toNat_lt (a : Int) : (a.emod 7).toNat < 7 := by
  have h1 : 0 ≤ a.emod 7 := Int.emod_nonneg a (by norm_num)
  have h2 : a.emod 7 < 7 := Int.emod_lt_of_pos a (by norm_num)
  omega

lemma weekdayOf_lt (y : Int) (m d : Nat) : weekdayOf y m d < 7 := by
  unfold weekdayOf
  exact int_emod7_toNat_lt _

lemma dayName_shape (n : Nat) (h : n < 7) :
    ∃ a b c, dayName n = [a, b, c] ∧ validWeekday [a, b, c] = true := by
  interval_cases n <;> exact ⟨_, _, _, rfl, rfl⟩

lemma monthName_shape (m : Nat) (h1 : 1 ≤ m) (h2 : m ≤ 12) :
    ∃ a b c, monthName m = [a, b, c] ∧ monthOfName [a, b, c] = some m := by
  interval_cases m <;> exact ⟨_, _, _, rfl, rfl⟩

lemma parseDate_formatDate (t : GoTime) (h : ValidGoTime t) :
    parseDate (formatDate t) = some { t with nanos := 0 } := by
  obtain ⟨y, mo, d, hh, mi, ss, na, off⟩ := t
  obtain ⟨hm1, hm2, hd1, hd2, hh1, hn1, hs1, hy1, hy2, ho1⟩ := h
  simp only at hm1 hm2 hd1 hd2 hh1 hn1 hs1 hy1 hy2 ho1
  obtain ⟨wa, wb, wc, hwd, hwv⟩ :=
    dayName_shape (weekdayOf y mo d) (weekdayOf_lt y mo d)
  obtain ⟨ma, mb, mc, hmd, hmv⟩ := monthName_shape mo hm1 hm2
  have hfd : formatDate ⟨y, mo, d, hh, mi, ss, na, off⟩
      = [wa, wb, wc, ' ', ma, mb, mc, ' ',
         Nat.digitChar (d / 10 % 10), Nat.digitChar (d % 10), ' ',
         Nat.digitChar (hh / 10 % 10), Nat.digitChar (hh % 10), ':',
         Nat.digitChar (mi / 10 % 10), Nat.digitChar (mi % 10), ':',
         Nat.digitChar (ss / 10 % 10), Nat.digitChar (ss % 10), ' ',
         Nat.digitChar (y.toNat / 1000 % 10), Nat.digitChar (y.toNat / 100 % 10),
         Nat.digitChar (y.toNat / 10 % 10), Nat.digitChar (y.toNat % 10), ' ',
         (if off < 0 then '-' else '+'),
         Nat.digitChar (off.natAbs / 60 / 10 % 10), Nat.digitChar (off.natAbs / 60 % 10),
         Nat.digitChar (off.natAbs % 60 / 10 % 10), Nat.digitChar (off.natAbs % 60 % 10)] := by
    simp [formatDate, pad2, year4, zoneStr, hwd, hmd]
  have hd99 : d ≤ 31 := by
    refine le_trans hd2 ?_
    unfold daysInMonth
    split <;> first | omega | (split_ifs <;> omega)
  rw [hfd]
  by_cases hoff : off < 0
  · simp only [if_pos hoff, parseDate, digitChar_isDigit, dv_digitChar, hmv, hwv,
      beq_self_eq_true, Bool.and_true, Bool.true_and, Bool.and_self, Bool.or_true,
      Bool.true_or, if_true]
    have hyy : (↑(y.toNat / 1000 % 10 * 1000 + y.toNat / 100 % 10 * 100 + y.toNat / 10 % 10 * 10 +
        y.toNat % 10) : Int) = y := by omega
    have hdd : d / 10 % 10 * 10 + d % 10 = d := by omega
    have hhh : hh / 10 % 10 * 10 + hh % 10 = hh := by omega
    have hmm : mi / 10 % 10 * 10 + mi % 10 = mi := by omega
    have hss : ss / 10 % 10 * 10 + ss % 10 = ss := by omega
    have hom : -1 * (((↑(off.natAbs / 60 / 10 % 10) : Int) * 10 + (↑(off.natAbs / 60 % 10) : Int)) * 60 +
        ((↑(off.natAbs % 60 / 10 % 10) : Int) * 10 + (↑(off.natAbs % 60 % 10) : Int))) = off := by omega
    rw [hyy, hdd, hhh, hmm, hss, hom]
    simp [hd1, hd2, hh1, hn1, hs1]
  · simp only [if_neg hoff, parseDate, digitChar_isDigit, dv_digitChar, hmv, hwv,
      beq_self_eq_true, Bool.and_true, Bool.true_and, Bool.and_self, Bool.or_true,
      Bool.true_or, if_true, show ('+' == '-') = false from rfl, Bool.false_eq_true,
      if_false]
    have hyy : (↑(y.toNat / 1000 % 10 * 1000 + y.toNat / 100 % 10 * 100 + y.toNat / 10 % 10 * 10 +
        y.toNat % 10) : Int) = y := by omega
    have hdd : d / 10 % 10 * 10 + d % 10 = d := by omega
    have hhh : hh / 10 % 10 * 10 + hh % 10 = hh := by omega
    have hmm : mi / 10 % 10 * 10 + mi % 10 = mi := by omega
    have hss : ss / 10 % 10 * 10 + ss % 10 = ss := by omega
    have hom : (1 : Int) * (((↑(off.natAbs / 60 / 10 % 10) : Int) * 10 + (↑(off.natAbs / 60 % 10) : Int)) * 60 +
        ((↑(off.natAbs % 60 / 10 % 10) : Int) * 10 + (↑(off.natAbs % 60 % 10) : Int))) = off := by omega
    rw [hyy, hdd, hhh, hmm, hss, hom]
    simp [hd1, hd2, hh1, hn1, hs1]

lemma parseDate_some_shape (s : List Char) (t : GoTime) (hs : parseDate s = some t) :
    ∃ w1 w2 w3 m1 m2 m3 d1 d2 h1 h2 n1 n2 s1 s2 y1 y2 y3 y4 zs z1 z2 z3 z4 : Char,
      s = [w1, w2, w3, ' ', m1, m2, m3, ' ', d1, d2, ' ', h1, h2, ':', n1, n2, ':',
        s1, s2, ' ', y1, y2, y3, y4, ' ', zs, z1, z2, z3, z4] ∧ z4.isDigit = true := by
  unfold parseDate at hs
  split at hs
  next w1 w2 w3 sp1 m1 m2 m3 sp2 d1 d2 sp3 h1 h2 co1 n1 n2 co2 s1 s2 sp4 y1 y2 y3 y4 sp5
      zs z1 z2 z3 z4 =>
    split at hs
    next hg1 =>
      obtain ⟨⟨hsp1, hsp2, hsp3, hco1, hco2, hsp4, hsp5⟩, hwv⟩ :
          ((sp1 = ' ' ∧ sp2 = ' ' ∧ sp3 = ' ' ∧ co1 = ':' ∧ co2 = ':' ∧ sp4 = ' ' ∧ sp5 = ' ')
            ∧ validWeekday [w1, w2, w3] = true) := by
        simp only [Bool.and_eq_true, beq_iff_eq] at hg1
        tauto
      subst hsp1 hsp2 hsp3 hco1 hco2 hsp4 hsp5
      split at hs
      next mo hmo =>
        split at hs
        next hg2 =>
          have hz4 : z4.isDigit = true := by
            simp only [Bool.and_eq_true] at hg2
            tauto
          exact ⟨w1, w2, w3, m1, m2, m3, d1, d2, h1, h2, n1, n2, s1, s2,
            y1, y2, y3, y4, zs, z1, z2, z3, z4, rfl, hz4⟩
        next => cases hs
      next => cases hs
    next => cases hs
  next => cases hs

lemma goTrimRight_last_not (u : List Char) (c : Char) (hc : c ≠ '\n') :
    goTrimRight (u ++ [c]) ['\n'] = u ++ [c] := by
  unfold goTrimRight
  have h1 : (u ++ [c]).reverse = c :: u.reverse := by simp
  rw [h1, List.dropWhile_cons_of_neg (by simp [hc])]
  simp

lemma dropWhile_rep_newline (v : List Char) (k : Nat) :
    List.dropWhile (fun c => (['\n'] : List Char).contains c) (List.replicate k '\n' ++ v)
      = List.dropWhile (fun c => (['\n'] : List Char).contains c) v := by
  induction k with
  | zero => simp
  | succ k ih =>
    rw [List.replicate_succ, List.cons_append, List.dropWhile_cons_of_pos (by rfl)]
    exact ih

lemma goTrimRight_rep (u : List Char) (k : Nat) :
    goTrimRight (u ++ List.replicate k '\n') ['\n'] = goTrimRight u ['\n'] := by
  unfold goTrimRight
  have h1 : (u ++ List.replicate k '\n').reverse = List.replicate k '\n' ++ u.reverse := by
    simp [List.reverse_replicate]
  rw [h1, dropWhile_rep_newline u.reverse k]

lemma formatDate_last (t : GoTime) :
    formatDate t
      = (dayName (weekdayOf t.year t.month t.day) ++ ' ' :: monthName t.month
          ++ ' ' :: pad2 t.day ++ ' ' :: pad2 t.hour ++ ':' :: pad2 t.minute
          ++ ':' :: pad2 t.second ++ ' ' :: year4 t.year
          ++ ' ' :: (if t.offMin < 0 then '-' else '+')
              :: (pad2 (t.offMin.natAbs / 60) ++ [Nat.digitChar (t.offMin.natAbs % 60 / 10 % 10)]))
        ++ [Nat.digitChar (t.offMin.natAbs % 60 % 10)] := by
  simp [formatDate, zoneStr, pad2, year4]

/-- C5.  Saving the checkpoint (writing the formatted start time) and
loading it again yields exactly the saved instant, up to the second
precision of the fixed format: the loaded value differs from the saved
one only in its dropped sub-second part. -/
theorem c5_checkpoint_roundtrip (startT now : GoTime) (h : ValidGoTime startT) :
    readCheckTime now (.present (writeCheckTimeContent startT))
      = .ok { startT with nanos := 0 } := by
  have htrim : goTrimRight (formatDate startT) ['\n'] = formatDate startT := by
    rw [formatDate_last startT]
    exact goTrimRight_last_not _ _ (digitChar_ne_newline _)
  simp [readCheckTime, writeCheckTimeContent, htrim, parseDate_formatDate startT h]

/-- C9.  Checkpoint load tolerates trailing newlines: content that is a
valid timestamp followed by any number of `\n` characters loads as the
bare timestamp does; a trailing `\r` is not stripped and makes the load
fail. -/
theorem c9_trailing_newlines (now : GoTime) (s : List Char) (t : GoTime) (k : Nat)
    (hs : parseDate s = some t) :
    readCheckTime now (.present (s ++ List.replicate k '\n'))
        = readCheckTime now (.present s) ∧
    readCheckTime now (.present s) = .ok t ∧
    readCheckTime now (.present (s ++ ['\r'])) = .error () := by
  obtain ⟨w1, w2, w3, m1, m2, m3, d1, d2, h1, h2, n1, n2, s1, s2,
    y1, y2, y3, y4, zs, z1, z2, z3, z4, hshape, hz4⟩ := parseDate_some_shape s t hs
  have hz4n : z4 ≠ '\n' := by
    intro he
    rw [he] at hz4
    exact absurd hz4 (by decide)
  have hlast : s = ([w1, w2, w3, ' ', m1, m2, m3, ' ', d1, d2, ' ', h1, h2, ':', n1, n2, ':',
      s1, s2, ' ', y1, y2, y3, y4, ' ', zs, z1, z2, z3] : List Char) ++ [z4] := by
    rw [hshape]
    simp
  have htrim : goTrimRight s ['\n'] = s := by
    rw [hlast]
    exact goTrimRight_last_not _ _ hz4n
  have htrim2 : goTrimRight (s ++ List.replicate k '\n') ['\n'] = s := by
    rw [goTrimRight_rep, htrim]
  have hr : parseDate (s ++ ['\r']) = none := by
    rw [hshape]
    rfl
  have htrim3 : goTrimRight (s ++ ['\r']) ['\n'] = s ++ ['\r'] :=
    goTrimRight_last_not s '\r' (by decide)
  refine ⟨?_, ?_, ?_⟩
  · simp [readCheckTime, htrim2, htrim]
  · simp [readCheckTime, htrim, hs]
  · simp [readCheckTime, htrim3, hr]

/-- C5, witness: a start time with a non-zero sub-second part
round-trips to the same time with the sub-second part dropped. -/
theorem c5_witness :
    readCheckTime tNow (.present (writeCheckTimeContent startW))
      = .ok { startW with nanos := 0 } :=
  c5_checkpoint_roundtrip startW tNow (by decide)

/-- C9, witness at a concrete timestamp with two trailing newlines. -/
theorem c9_witness :
    readCheckTime tNow (.present (sC9 ++ List.replicate 2 '\n'))
        = readCheckTime tNow (.present sC9) ∧
    readCheckTime tNow (.present sC9) = .ok t1 ∧
    readCheckTime tNow (.present (sC9 ++ ['\r'])) = .error () :=
  c9_trailing_newlines tNow sC9 t1 2 (by decide)
